import Mathlib

/-!
# Verification of the sudoku LP solver's board/region model

Shallow embedding of the solver sources (`solver/cell.py`, `solver/box.py`,
`solver/sudoku.py`).  Python `assert`-based construction is modelled by
`Option`-returning smart constructors (`none` = construction failure), Python
sets by `Finset`/`List.dedup`, and the BFS while-loop of the region
connectivity check by a fuel-bounded fixpoint iteration (the fuel
`cells.length` is shown sufficient below).
-/

set_option maxHeartbeats 1000000

/-- A sudoku cell at a 1-indexed (row, column) position; value equality on the
coordinate pair (`cell.py`, class `Cell`). -/
structure Cell where
  row : Int
  column : Int
deriving DecidableEq

/-- Predicate `Cell.is_orthogonal` from `cell.py`: same column and rows differing by 1,
or same row and columns differing by 1. -/
def Cell.is_orthogonal (self other : Cell) : Bool :=
  (self.column == other.column && (self.row - other.row).natAbs == 1) ||
  (self.row == other.row && (self.column - other.column).natAbs == 1)

/-- A sudoku box: the list of cells handed to the constructor (`box.py`). -/
structure Box where
  cells : List Cell
deriving DecidableEq

/-- The neighbours of `v` found by the Python filter
`filter(lambda c: cell.is_orthogonal(c), self.cells)` in `Box._validate_cells`,
collected as a set. -/
def neighborsIn (cells : List Cell) (v : Cell) : Finset Cell :=
  (cells.filter fun c => v.is_orthogonal c).toFinset

/-- One round of the BFS loop of `Box._validate_cells`: the visited set plus
every in-box orthogonal neighbour of a visited cell. -/
def reachStep (cells : List Cell) (S : Finset Cell) : Finset Cell :=
  S ∪ S.biUnion (neighborsIn cells)

/-- The final `visited_cells` set of the BFS loop in `Box._validate_cells`:
starting from the first cell, iterating the expansion step `cells.length`
times reaches the loop's fixpoint. -/
def bfsVisited (cells : List Cell) : Finset Cell :=
  match cells with
  | [] => ∅
  | c0 :: _ => (reachStep cells)^[cells.length] {c0}

/-- Validation `Box._validate_cells` from `box.py`: non-empty, duplicate-free
(`len(set(cells)) == len(cells)`), and the BFS from the first cell visits
every cell (`len(visited_cells) == len(self.cells)`). -/
def Box.validate_cells (cells : List Cell) : Bool :=
  decide (0 < cells.length) &&
  (cells.toFinset.card == cells.length) &&
  ((bfsVisited cells).card == cells.length)

/-- Constructor `Box.__init__`: store the cells after `_validate_cells`; a failed Python
assert is modelled as `none`. -/
def Box.make (cells : List Cell) : Option Box :=
  if Box.validate_cells cells then some ⟨cells⟩ else none

/-- Spec-side adjacency: one orthogonal step landing inside the region. -/
def cellAdj (cells : List Cell) (a b : Cell) : Prop :=
  b ∈ cells ∧ a.is_orthogonal b = true

/-- Spec-side reachability: a chain of orthogonal neighbours within the
region. -/
def ReachableIn (cells : List Cell) (a b : Cell) : Prop :=
  Relation.ReflTransGen (cellAdj cells) a b

/-- Spec-side connectivity: every cell is reachable from the first cell via
orthogonal chains inside the region. -/
def ConnectedCells (cells : List Cell) : Prop :=
  ∃ c0, cells.head? = some c0 ∧ ∀ c ∈ cells, ReachableIn cells c0 c

lemma neighborsIn_subset (cells : List Cell) (v : Cell) :
    neighborsIn cells v ⊆ cells.toFinset := by
  intro c hc
  simp only [neighborsIn, List.mem_toFinset, List.mem_filter] at hc
  simp [hc.1]

lemma subset_reachStep (cells : List Cell) (S : Finset Cell) :
    S ⊆ reachStep cells S :=
  Finset.subset_union_left

lemma reachStep_subset (cells : List Cell) (S : Finset Cell)
    (hS : S ⊆ cells.toFinset) : reachStep cells S ⊆ cells.toFinset := by
  apply Finset.union_subset hS
  intro c hc
  rcases Finset.mem_biUnion.mp hc with ⟨v, _, hv⟩
  exact neighborsIn_subset cells v hv

lemma reachStep_mono (cells : List Cell) {S T : Finset Cell} (h : S ⊆ T) :
    reachStep cells S ⊆ reachStep cells T :=
  Finset.union_subset_union h (Finset.biUnion_subset_biUnion_of_subset_left _ h)

lemma iterate_reachStep_subset (cells : List Cell) (S : Finset Cell)
    (hS : S ⊆ cells.toFinset) (k : Nat) :
    (reachStep cells)^[k] S ⊆ cells.toFinset := by
  induction k with
  | zero => simpa using hS
  | succ n ih =>
    rw [Function.iterate_succ_apply']
    exact reachStep_subset cells _ ih

lemma subset_iterate_reachStep (cells : List Cell) (S : Finset Cell) (k : Nat) :
    S ⊆ (reachStep cells)^[k] S := by
  induction k with
  | zero => simp
  | succ n ih =>
    rw [Function.iterate_succ_apply']
    exact ih.trans (subset_reachStep cells _)

lemma iterate_fix_of_fix {f : Finset Cell → Finset Cell} {S : Finset Cell}
    (h : f S = S) (j : Nat) : f^[j] S = S := by
  induction j with
  | zero => rfl
  | succ n ih => rw [Function.iterate_succ_apply', ih, h]

/-- After `cells.length` rounds the BFS expansion has reached its fixpoint. -/
lemma reachStep_iterate_length_fix (cells : List Cell) (c0 : Cell)
    (hc0 : c0 ∈ cells) :
    reachStep cells ((reachStep cells)^[cells.length] {c0}) =
      (reachStep cells)^[cells.length] {c0} := by
  set f := reachStep cells with hf
  set n := cells.length with hn
  by_cases hex : ∃ k, k < n ∧ f (f^[k] ({c0} : Finset Cell)) = f^[k] ({c0} : Finset Cell)
  · rcases hex with ⟨k, hk, hfix⟩
    have hrest : f^[n] ({c0} : Finset Cell) = f^[k] ({c0} : Finset Cell) := by
      have : f^[n] ({c0} : Finset Cell) = f^[n - k] (f^[k] ({c0} : Finset Cell)) := by
        rw [← Function.iterate_add_apply]
        congr 1
        omega
      rw [this, iterate_fix_of_fix hfix]
    rw [hrest, hfix]
  · push_neg at hex
    exfalso
    have hgrow : ∀ k, k ≤ n → k + 1 ≤ (f^[k] ({c0} : Finset Cell)).card := by
      intro k
      induction k with
      | zero => intro _; simp
      | succ m ih =>
        intro hm
        have hm' : m < n := by omega
        have hne := hex m hm'
        have hsub : f^[m] ({c0} : Finset Cell) ⊆ f^[m + 1] ({c0} : Finset Cell) := by
          rw [Function.iterate_succ_apply']
          exact subset_reachStep cells _
        have hss : f^[m] ({c0} : Finset Cell) ⊂ f^[m + 1] ({c0} : Finset Cell) := by
          refine ⟨hsub, fun hback => hne ?_⟩
          have heq : f^[m + 1] ({c0} : Finset Cell) = f^[m] ({c0} : Finset Cell) :=
            Finset.Subset.antisymm hback hsub
          rw [Function.iterate_succ_apply'] at heq
          exact heq
        have hlt := Finset.card_lt_card hss
        have := ih (le_of_lt hm')
        omega
    have hcard := hgrow n (le_refl n)
    have hsub : f^[n] ({c0} : Finset Cell) ⊆ cells.toFinset :=
      iterate_reachStep_subset cells _ (by simpa using hc0) n
    have hle : (f^[n] ({c0} : Finset Cell)).card ≤ cells.toFinset.card :=
      Finset.card_le_card hsub
    have hle2 : cells.toFinset.card ≤ n := by
      simpa [hn] using cells.toFinset_card_le
    omega

/-- BFS soundness: every visited cell is reachable from the start cell. -/
lemma iterate_reachStep_sound (cells : List Cell) (c0 : Cell) (k : Nat) :
    ∀ c ∈ (reachStep cells)^[k] ({c0} : Finset Cell), ReachableIn cells c0 c := by
  induction k with
  | zero =>
    intro c hc
    simp only [Function.iterate_zero_apply, Finset.mem_singleton] at hc
    subst hc
    exact Relation.ReflTransGen.refl
  | succ n ih =>
    intro c hc
    rw [Function.iterate_succ_apply'] at hc
    rcases Finset.mem_union.mp hc with h | h
    · exact ih c h
    · rcases Finset.mem_biUnion.mp h with ⟨v, hv, hvc⟩
      simp only [neighborsIn, List.mem_toFinset, List.mem_filter] at hvc
      exact Relation.ReflTransGen.tail (ih v hv) ⟨hvc.1, hvc.2⟩

/-- BFS completeness: every cell reachable from the start cell is visited. -/
lemma iterate_reachStep_complete (cells : List Cell) (c0 : Cell)
    (hc0 : c0 ∈ cells) (c : Cell) (h : ReachableIn cells c0 c) :
    c ∈ (reachStep cells)^[cells.length] ({c0} : Finset Cell) := by
  induction h with
  | refl =>
    exact subset_iterate_reachStep cells {c0} cells.length (Finset.mem_singleton_self c0)
  | @tail b c hab hbc ih =>
    rw [← reachStep_iterate_length_fix cells c0 hc0]
    apply Finset.mem_union_right
    apply Finset.mem_biUnion.mpr
    refine ⟨b, ih, ?_⟩
    simp only [neighborsIn, List.mem_toFinset, List.mem_filter]
    exact ⟨hbc.1, hbc.2⟩

/-- The BFS visited set is exactly the set of cells reachable from the first
cell. -/
lemma bfsVisited_eq (cells : List Cell) (c0 : Cell) (rest : List Cell)
    (hc : cells = c0 :: rest) (c : Cell) :
    c ∈ bfsVisited cells ↔ ReachableIn cells c0 c := by
  subst hc
  constructor
  · intro h
    exact iterate_reachStep_sound _ c0 _ c h
  · intro h
    exact iterate_reachStep_complete _ c0 (List.mem_cons_self c0 rest) c h

lemma bfsVisited_subset (cells : List Cell) :
    bfsVisited cells ⊆ cells.toFinset := by
  match cells with
  | [] => simp [bfsVisited]
  | c0 :: rest =>
    exact iterate_reachStep_subset _ _ (by simp) _

lemma toFinset_card_eq_length_iff (l : List Cell) :
    l.toFinset.card = l.length ↔ l.Nodup := by
  constructor
  · intro h
    rw [List.card_toFinset] at h
    have hsub := l.dedup_sublist
    have := hsub.eq_of_length h
    rw [← List.dedup_eq_self]
    exact this
  · intro h
    exact List.toFinset_card_of_nodup h

/-- Validation `Box._validate_cells` succeeds exactly on non-empty, duplicate-free,
connected cell collections. -/
lemma validate_cells_iff (cells : List Cell) :
    Box.validate_cells cells = true ↔
      cells ≠ [] ∧ cells.Nodup ∧ ConnectedCells cells := by
  match cells with
  | [] => simp [Box.validate_cells]
  | c0 :: rest =>
    simp only [Box.validate_cells, Bool.and_eq_true, decide_eq_true_eq, beq_iff_eq]
    constructor
    · rintro ⟨⟨hpos, hcard⟩, hbfs⟩
      have hnd : (c0 :: rest).Nodup := (toFinset_card_eq_length_iff _).mp hcard
      refine ⟨by simp, hnd, ?_⟩
      have hsub := bfsVisited_subset (c0 :: rest)
      have hcards : (bfsVisited (c0 :: rest)).card = (c0 :: rest).toFinset.card := by
        rw [hbfs, hcard]
      have heq : bfsVisited (c0 :: rest) = (c0 :: rest).toFinset :=
        Finset.eq_of_subset_of_card_le hsub (le_of_eq hcards.symm)
      refine ⟨c0, rfl, fun c hc => ?_⟩
      have hmem : c ∈ bfsVisited (c0 :: rest) := heq ▸ (List.mem_toFinset.mpr hc)
      exact (bfsVisited_eq _ c0 rest rfl c).mp hmem
    · rintro ⟨hne, hnd, c0', hhead, hreach⟩
      have hc0 : c0 = c0' := by simpa using hhead
      subst hc0
      have hcard := (toFinset_card_eq_length_iff (c0 :: rest)).mpr hnd
      refine ⟨⟨by simp, hcard⟩, ?_⟩
      have heq : bfsVisited (c0 :: rest) = (c0 :: rest).toFinset := by
        apply Finset.Subset.antisymm (bfsVisited_subset _)
        intro c hc
        exact (bfsVisited_eq _ c0 rest rfl c).mpr (hreach c (List.mem_toFinset.mp hc))
      rw [heq, hcard]

/-- C3: region construction fails exactly when the cell collection is empty,
contains a duplicate, or is not connected from its first cell under the
orthogonal-adjacency relation restricted to the collection; on success the
box holds exactly the given cells. -/
theorem box_construction_spec (cells : List Cell) :
    (Box.make cells = none ↔ cells = [] ∨ ¬cells.Nodup ∨ ¬ConnectedCells cells) ∧
    (Box.make cells = none ∨ (Box.make cells).map Box.cells = some cells) := by
  have hv := validate_cells_iff cells
  constructor
  · constructor
    · intro hnone
      have hnv : ¬ Box.validate_cells cells = true := by
        intro ht
        rw [Box.make, if_pos ht] at hnone
        exact Option.noConfusion hnone
      rw [hv] at hnv
      by_cases h1 : cells = []
      · exact Or.inl h1
      by_cases h2 : cells.Nodup
      · exact Or.inr (Or.inr (fun hc => hnv ⟨h1, h2, hc⟩))
      · exact Or.inr (Or.inl h2)
    · intro hdisj
      have hnv : ¬ Box.validate_cells cells = true := by
        rw [hv]
        rintro ⟨hne, hnd, hc⟩
        rcases hdisj with h | h | h
        exacts [hne h, h hnd, h hc]
      rw [Box.make, if_neg hnv]
  · rw [Box.make]
    by_cases h : Box.validate_cells cells = true
    · right
      rw [if_pos h]
      rfl
    · left
      rw [if_neg h]

/-- C9: a region made of exactly one cell, at any integer coordinates, always
validates: it is non-empty, duplicate-free and trivially connected, so the
error branch of `Box._validate_cells` is unreachable. -/
theorem singleton_box_succeeds (r c : Int) :
    Box.make [⟨r, c⟩] = some ⟨[⟨r, c⟩]⟩ := by
  have hv : Box.validate_cells [(⟨r, c⟩ : Cell)] = true := by
    rw [validate_cells_iff]
    refine ⟨by simp, List.nodup_singleton _, ⟨r, c⟩, rfl, ?_⟩
    intro x hx
    have hx' : x = ⟨r, c⟩ := by simpa using hx
    subst hx'
    exact Relation.ReflTransGen.refl
  rw [Box.make, if_pos hv]

/-- The grid enumeration of `Sudoku._validate_boxes`
(`for row in range(1, rows+1): for column in range(1, columns+1)`), as the
row-major list of all grid cells. -/
def gridCells (rows columns : Nat) : List Cell :=
  ((List.range rows).product (List.range columns)).map
    fun p => ⟨(p.1 : Int) + 1, (p.2 : Int) + 1⟩

/-- The grid cells as a set. -/
def gridFinset (rows columns : Nat) : Finset Cell :=
  (gridCells rows columns).toFinset

/-- The `box_cells` Python set accumulated in `Sudoku._validate_boxes`,
modelled as a deduplicated list of all boxes' cells. -/
def boxCellsUnion (boxes : List Box) : List Cell :=
  (boxes.flatMap Box.cells).dedup

/-- Validation `Sudoku._validate_boxes` from `sudoku.py`: every box non-empty, the union
set of box cells has exactly `rows * columns` elements, and every grid cell
belongs to it. -/
def Sudoku.validate_boxes (rows columns : Nat) (boxes : List Box) : Bool :=
  boxes.all (fun bx => decide (0 < bx.cells.length)) &&
  ((boxCellsUnion boxes).length == rows * columns) &&
  (gridCells rows columns).all (fun c => decide (c ∈ boxCellsUnion boxes))

lemma gridCells_nodup (rows columns : Nat) : (gridCells rows columns).Nodup := by
  apply List.Nodup.map
  · intro p q h
    simp only [Cell.mk.injEq] at h
    have h1 : p.1 = q.1 := by omega
    have h2 : p.2 = q.2 := by omega
    exact Prod.ext h1 h2
  · exact List.Nodup.product (List.nodup_range rows) (List.nodup_range columns)

lemma gridCells_length (rows columns : Nat) :
    (gridCells rows columns).length = rows * columns := by
  have h : ((List.range rows).product (List.range columns)).length = rows * columns := by
    have hp := List.length_product (List.range rows) (List.range columns)
    simpa using hp
  simp [gridCells, h]

lemma gridFinset_card (rows columns : Nat) :
    (gridFinset rows columns).card = rows * columns := by
  rw [gridFinset, List.toFinset_card_of_nodup (gridCells_nodup rows columns)]
  exact gridCells_length rows columns

lemma boxCellsUnion_toFinset (boxes : List Box) :
    (boxCellsUnion boxes).toFinset = (boxes.flatMap Box.cells).toFinset := by
  ext c
  simp [boxCellsUnion, List.mem_dedup]

lemma boxCellsUnion_length (boxes : List Box) :
    (boxCellsUnion boxes).length = (boxes.flatMap Box.cells).toFinset.card := by
  rw [List.card_toFinset]
  rfl

/-- C4 (amended): box validation succeeds iff every box is non-empty and the
union of the boxes' cells, as a set, is exactly the grid; an overlap between
boxes is only detected through its effect on this union. -/
theorem validate_boxes_union_iff (rows columns : Nat) (boxes : List Box)
    (hne : ∀ bx ∈ boxes, bx.cells ≠ []) :
    Sudoku.validate_boxes rows columns boxes = true ↔
      (boxes.flatMap Box.cells).toFinset = gridFinset rows columns := by
  have hall : boxes.all (fun bx => decide (0 < bx.cells.length)) = true := by
    rw [List.all_eq_true]
    intro bx hbx
    have := hne bx hbx
    simp only [decide_eq_true_eq]
    cases h : bx.cells with
    | nil => exact absurd h this
    | cons a l => simp [h]
  simp only [Sudoku.validate_boxes, Bool.and_eq_true, hall, true_and, beq_iff_eq,
    List.all_eq_true, decide_eq_true_eq]
  constructor
  · rintro ⟨hlen, hcov⟩
    have hsub : gridFinset rows columns ⊆ (boxes.flatMap Box.cells).toFinset := by
      intro c hc
      rw [gridFinset, List.mem_toFinset] at hc
      have := hcov c hc
      rw [← boxCellsUnion_toFinset, List.mem_toFinset]
      exact this
    have hcards : (boxes.flatMap Box.cells).toFinset.card ≤ (gridFinset rows columns).card := by
      rw [gridFinset_card, ← boxCellsUnion_length, hlen]
    exact (Finset.eq_of_subset_of_card_le hsub hcards).symm
  · intro heq
    constructor
    · rw [boxCellsUnion_length, heq, gridFinset_card]
    · intro c hc
      have : c ∈ (boxes.flatMap Box.cells).toFinset := by
        rw [heq, gridFinset, List.mem_toFinset]
        exact hc
      rw [← boxCellsUnion_toFinset, List.mem_toFinset] at this
      exact this

/-- C4 counterexample: a region list with an overlap (cell (1,1) belongs to
both boxes) whose union still covers the 2x2 grid passes
`Sudoku._validate_boxes`, so construction does not fail on every overlap. -/
theorem validate_boxes_overlap_passes :
    Sudoku.validate_boxes 2 2 [⟨[⟨1, 1⟩, ⟨1, 2⟩, ⟨2, 1⟩, ⟨2, 2⟩]⟩, ⟨[⟨1, 1⟩, ⟨2, 1⟩]⟩] = true ∧
    (⟨1, 1⟩ : Cell) ∈ ([⟨1, 1⟩, ⟨1, 2⟩, ⟨2, 1⟩, ⟨2, 2⟩] : List Cell) ∧
    (⟨1, 1⟩ : Cell) ∈ ([⟨1, 1⟩, ⟨2, 1⟩] : List Cell) ∧
    Box.validate_cells [⟨1, 1⟩, ⟨1, 2⟩, ⟨2, 1⟩, ⟨2, 2⟩] = true ∧
    Box.validate_cells [⟨1, 1⟩, ⟨2, 1⟩] = true := by
  decide

/-- A concrete 2x2 partition into two horizontal dominoes. -/
def dominoBoxes : List Box :=
  [⟨[⟨1, 1⟩, ⟨1, 2⟩]⟩, ⟨[⟨2, 1⟩, ⟨2, 2⟩]⟩]

/-- C4 witness: the amended equivalence evaluated on the domino partition of
the 2x2 grid. -/
theorem validate_boxes_union_iff_witness :
    (Sudoku.validate_boxes 2 2 dominoBoxes = true ↔
      (dominoBoxes.flatMap Box.cells).toFinset = gridFinset 2 2) ∧
    Sudoku.validate_boxes 2 2 dominoBoxes = true :=
  ⟨validate_boxes_union_iff 2 2 dominoBoxes (by decide), by decide⟩

/-- Python `int(char)` on a single digit character. -/
def digitVal (ch : Char) : Nat := ch.toNat - '0'.toNat

/-- The `givens_string.replace(".", "0")` normalization of `Sudoku.__init__`,
one character at a time. -/
def normalizeChar (ch : Char) : Char := if ch = '.' then '0' else ch

/-- The loop of `Sudoku._add_givens_from_string`: walk the characters with
their index, fail (`assert char.isdigit()`) on a non-digit, and record
`Cell(index // rows + 1, index % columns + 1) -> digit` for each non-zero
digit, in string order. -/
def addGivensLoop (rows columns : Nat) : Nat → List Char → Option (List (Cell × Nat))
  | _, [] => some []
  | index, ch :: rest =>
    if ch.isDigit then
      let tail := addGivensLoop rows columns (index + 1) rest
      if digitVal ch ≠ 0 then
        tail.map fun l =>
          ((⟨(index / rows + 1 : Nat), (index % columns + 1 : Nat)⟩ : Cell), digitVal ch) :: l
      else tail
    else none

/-- Loop wrapper `Sudoku._add_givens_from_string` (the caller has already normalized the
string). -/
def Sudoku.add_givens_from_string (rows columns : Nat) (s : List Char) :
    Option (List (Cell × Nat)) :=
  addGivensLoop rows columns 0 s

/-- Handling by `Sudoku.__init__` of a supplied givens string: assert its
length is `rows * columns`, replace `.` by `0`, then add the givens. -/
def parseGivens (rows columns : Nat) (s : List Char) : Option (List (Cell × Nat)) :=
  if s.length = rows * columns then
    Sudoku.add_givens_from_string rows columns (s.map normalizeChar)
  else none

/-- What `Sudoku.__init__` stores. -/
structure SudokuModel where
  rows : Nat
  columns : Nat
  boxes : List Box
  digits : List (Cell × Nat)
deriving DecidableEq

/-- Constructor `Sudoku.__init__`: assert `rows == columns`, validate the boxes, then
parse the optional givens string; any failed assert yields `none`. -/
def Sudoku.make (rows columns : Nat) (boxes : List Box)
    (givens : Option (List Char)) : Option SudokuModel :=
  if rows = columns then
    if Sudoku.validate_boxes rows columns boxes then
      match givens with
      | none => some ⟨rows, columns, boxes, []⟩
      | some s => (parseGivens rows columns s).map fun g => ⟨rows, columns, boxes, g⟩
    else none
  else none

/-- Spec-side closed form of the recorded givens: position `i` of the
normalized string holding digit `d ≠ 0` records
`Cell(i div rows + 1, i mod columns + 1) -> d`; `0` (and `.`) record
nothing. -/
def givensSpec (rows columns : Nat) (s : List Char) : List (Cell × Nat) :=
  ((s.map normalizeChar).enumFrom 0).filterMap fun p =>
    if digitVal p.2 = 0 then none
    else some ((⟨(p.1 / rows + 1 : Nat), (p.1 % columns + 1 : Nat)⟩ : Cell), digitVal p.2)

lemma addGivensLoop_eq_spec (rows columns : Nat) :
    ∀ (s : List Char) (start : Nat), (∀ ch ∈ s, ch.isDigit = true) →
      addGivensLoop rows columns start s =
        some ((s.enumFrom start).filterMap fun p =>
          if digitVal p.2 = 0 then none
          else some ((⟨(p.1 / rows + 1 : Nat), (p.1 % columns + 1 : Nat)⟩ : Cell), digitVal p.2))
  | [], start, _ => by simp [addGivensLoop]
  | ch :: rest, start, h => by
    have hch : ch.isDigit = true := h ch (List.mem_cons_self ch rest)
    have hrest : ∀ c ∈ rest, c.isDigit = true := fun c hc => h c (List.mem_cons_of_mem ch hc)
    have ih := addGivensLoop_eq_spec rows columns rest (start + 1) hrest
    rw [addGivensLoop, if_pos hch]
    by_cases hz : digitVal ch = 0
    · simp [hz, ih, List.enumFrom, List.filterMap_cons]
    · simp [hz, ih, List.enumFrom, List.filterMap_cons]

lemma addGivensLoop_none (rows columns : Nat) :
    ∀ (s : List Char) (start : Nat), (∃ ch ∈ s, ¬ch.isDigit = true) →
      addGivensLoop rows columns start s = none
  | [], start, h => by simp at h
  | ch :: rest, start, h => by
    by_cases hch : ch.isDigit = true
    · have hrest : ∃ c ∈ rest, ¬c.isDigit = true := by
        rcases h with ⟨c, hc, hnd⟩
        rcases List.mem_cons.mp hc with rfl | hc'
        · exact absurd hch hnd
        · exact ⟨c, hc', hnd⟩
      have ih := addGivensLoop_none rows columns rest (start + 1) hrest
      rw [addGivensLoop, if_pos hch]
      by_cases hz : digitVal ch = 0
      · simp [hz, ih]
      · simp [hz, ih]
    · rw [addGivensLoop, if_neg hch]

/-- C5: givens parsing records exactly the non-zero digits at row-major
positions `Cell(i div rows + 1, i mod columns + 1)` after treating `.` as
`0`; a remaining non-digit character or a wrong-length string makes
construction fail. -/
theorem parse_givens_spec (rows columns : Nat) (s : List Char) :
    (s.length ≠ rows * columns → parseGivens rows columns s = none) ∧
    (s.length = rows * columns →
      ((∀ ch ∈ s, (normalizeChar ch).isDigit = true) →
        parseGivens rows columns s = some (givensSpec rows columns s)) ∧
      ((∃ ch ∈ s, ¬(normalizeChar ch).isDigit = true) →
        parseGivens rows columns s = none)) := by
  constructor
  · intro hlen
    rw [parseGivens, if_neg hlen]
  · intro hlen
    constructor
    · intro hdig
      rw [parseGivens, if_pos hlen, Sudoku.add_givens_from_string,
        addGivensLoop_eq_spec rows columns (s.map normalizeChar) 0 ?_]
      · rfl
      · intro c hc
        rcases List.mem_map.mp hc with ⟨c0, hc0, rfl⟩
        exact hdig c0 hc0
    · intro hbad
      rw [parseGivens, if_pos hlen, Sudoku.add_givens_from_string,
        addGivensLoop_none rows columns (s.map normalizeChar) 0 ?_]
      rcases hbad with ⟨c, hc, hnd⟩
      exact ⟨normalizeChar c, List.mem_map.mpr ⟨c, hc, rfl⟩, hnd⟩

/-- C5 witness: parsing the concrete 2x2 string `1.02`. -/
theorem parse_givens_spec_witness :
    (['1', '.', '0', '2'].length = 2 * 2) ∧
    parseGivens 2 2 ['1', '.', '0', '2'] = some (givensSpec 2 2 ['1', '.', '0', '2']) ∧
    givensSpec 2 2 ['1', '.', '0', '2'] =
      [((⟨1, 1⟩ : Cell), 1), ((⟨2, 2⟩ : Cell), 2)] :=
  ⟨rfl, ((parse_givens_spec 2 2 ['1', '.', '0', '2']).2 rfl).1 (by decide), by decide⟩

lemma make_some_inv (rows columns : Nat) (boxes : List Box) (s : List Char)
    (m : SudokuModel) (h : Sudoku.make rows columns boxes (some s) = some m) :
    rows = columns ∧ s.length = rows * columns ∧
    parseGivens rows columns s = some m.digits := by
  by_cases h1 : rows = columns
  · rw [Sudoku.make, if_pos h1] at h
    by_cases h2 : Sudoku.validate_boxes rows columns boxes = true
    · rw [if_pos h2] at h
      cases hp : parseGivens rows columns s with
      | none =>
        rw [hp] at h
        exact Option.noConfusion h
      | some g =>
        rw [hp] at h
        simp only [Option.map_some'] at h
        injection h with h
        subst h
        refine ⟨h1, ?_, rfl⟩
        by_contra hlen
        rw [parseGivens, if_neg hlen] at hp
        exact Option.noConfusion hp
    · rw [if_neg h2] at h
      exact Option.noConfusion h
  · rw [Sudoku.make, if_neg h1] at h
    exact Option.noConfusion h

lemma digitVal_le_nine (ch : Char) (h : ch.isDigit = true) : digitVal ch ≤ 9 := by
  simp only [Char.isDigit, Bool.and_eq_true, decide_eq_true_eq] at h
  obtain ⟨h1, h2⟩ := h
  have h2' : ch.val.toNat ≤ (57 : UInt32).toNat := h2
  have e2 : (57 : UInt32).toNat = 57 := rfl
  have e3 : ch.toNat = ch.val.toNat := rfl
  rw [e2] at h2'
  rw [digitVal, e3]
  have e4 : '0'.toNat = 48 := rfl
  rw [e4]
  omega

/-- C6 (amended): every given recorded by a successful board construction has
coordinates inside the grid and a digit between 1 and 9; construction does
NOT compare the digit with the domain maximum `max(rows, columns)`, so an
out-of-domain digit (such as 7 on a 4x4 board) is accepted rather than
rejected. -/
theorem givens_range_amended (rows columns : Nat) (boxes : List Box)
    (s : List Char) (m : SudokuModel)
    (h : Sudoku.make rows columns boxes (some s) = some m) :
    ∀ p ∈ m.digits,
      1 ≤ p.1.row ∧ p.1.row ≤ (rows : Int) ∧
      1 ≤ p.1.column ∧ p.1.column ≤ (columns : Int) ∧
      1 ≤ p.2 ∧ p.2 ≤ 9 := by
  obtain ⟨hsq, hlen, hp⟩ := make_some_inv rows columns boxes s m h
  have hdig : ∀ ch ∈ s.map normalizeChar, ch.isDigit = true := by
    by_contra hex
    push_neg at hex
    obtain ⟨c, hc, hnd⟩ := hex
    rw [parseGivens, if_pos hlen, Sudoku.add_givens_from_string,
      addGivensLoop_none rows columns _ 0 ⟨c, hc, by simpa using hnd⟩] at hp
    exact Option.noConfusion hp
  have hspec := addGivensLoop_eq_spec rows columns (s.map normalizeChar) 0 hdig
  rw [parseGivens, if_pos hlen, Sudoku.add_givens_from_string, hspec] at hp
  have hdg := (Option.some_inj.mp hp).symm
  intro p hpmem
  rw [hdg] at hpmem
  rcases List.mem_filterMap.mp hpmem with ⟨q, hq, hqp⟩
  have hbounds := List.mem_enumFrom hq
  have hqlen : q.1 < s.length := by
    have := hbounds.2.1
    simpa using this
  have hqmem : q.2 ∈ s.map normalizeChar := by
    have hget := hbounds.2.2
    rw [hget]
    exact List.getElem_mem _
  have hqdig : q.2.isDigit = true := hdig q.2 hqmem
  by_cases hz : digitVal q.2 = 0
  · rw [if_pos hz] at hqp
    exact Option.noConfusion hqp
  · rw [if_neg hz] at hqp
    injection hqp with hqp
    subst hqp
    have hrows : 0 < rows := by
      rcases Nat.eq_zero_or_pos rows with h0 | h0
      · subst h0
        rw [Nat.zero_mul] at hlen
        omega
      · exact h0
    have hcols : 0 < columns := by omega
    have hq1 : q.1 < rows * columns := by omega
    have hdivlt : q.1 / rows < rows := by
      rw [Nat.div_lt_iff_lt_mul hrows]
      rw [hsq] at hq1 ⊢
      exact hq1
    have hmodlt : q.1 % columns < columns := Nat.mod_lt _ hcols
    have h9 := digitVal_le_nine q.2 hqdig
    refine ⟨?_, ?_, ?_, ?_, ?_, h9⟩
    · show (1 : Int) ≤ ((q.1 / rows + 1 : Nat) : Int)
      exact_mod_cast Nat.le_add_left 1 (q.1 / rows)
    · show ((q.1 / rows + 1 : Nat) : Int) ≤ (rows : Int)
      exact_mod_cast Nat.succ_le_of_lt hdivlt
    · show (1 : Int) ≤ ((q.1 % columns + 1 : Nat) : Int)
      exact_mod_cast Nat.le_add_left 1 (q.1 % columns)
    · show ((q.1 % columns + 1 : Nat) : Int) ≤ (columns : Int)
      exact_mod_cast Nat.succ_le_of_lt hmodlt
    · omega

/-- A 4x4 board partitioned into its four rows (each a connected box). -/
def rowBoxes4 : List Box :=
  [⟨[⟨1, 1⟩, ⟨1, 2⟩, ⟨1, 3⟩, ⟨1, 4⟩]⟩,
   ⟨[⟨2, 1⟩, ⟨2, 2⟩, ⟨2, 3⟩, ⟨2, 4⟩]⟩,
   ⟨[⟨3, 1⟩, ⟨3, 2⟩, ⟨3, 3⟩, ⟨3, 4⟩]⟩,
   ⟨[⟨4, 1⟩, ⟨4, 2⟩, ⟨4, 3⟩, ⟨4, 4⟩]⟩]

/-- C6 counterexample: on a 4x4 board (domain maximum 4) a givens string
starting with the digit 7 is accepted: construction succeeds and records
`Cell(1,1) -> 7`, instead of failing as the claim requires. -/
theorem out_of_domain_given_accepted :
    Sudoku.make 4 4 rowBoxes4
        (some ['7', '0', '0', '0', '0', '0', '0', '0',
               '0', '0', '0', '0', '0', '0', '0', '0']) =
      some ⟨4, 4, rowBoxes4, [((⟨1, 1⟩ : Cell), 7)]⟩ ∧
    7 > max 4 4 ∧
    (rowBoxes4.all fun bx => Box.validate_cells bx.cells) = true := by
  refine ⟨?_, by decide, by decide⟩
  decide

/-- C6 witness: the amended range property evaluated on a concrete 2x2 board
with the single given `Cell(1,1) -> 3`. -/
theorem givens_range_amended_witness :
    1 ≤ ((⟨1, 1⟩ : Cell), 3).1.row ∧ ((⟨1, 1⟩ : Cell), 3).1.row ≤ ((2 : Nat) : Int) ∧
    1 ≤ ((⟨1, 1⟩ : Cell), 3).1.column ∧ ((⟨1, 1⟩ : Cell), 3).1.column ≤ ((2 : Nat) : Int) ∧
    1 ≤ ((⟨1, 1⟩ : Cell), 3).2 ∧ ((⟨1, 1⟩ : Cell), 3).2 ≤ 9 :=
  givens_range_amended 2 2 dominoBoxes ['3', '0', '0', '0']
    ⟨2, 2, dominoBoxes, [((⟨1, 1⟩ : Cell), 3)]⟩ (by decide)
    ((⟨1, 1⟩ : Cell), 3) (by decide)

/-- List `valid_cell_numbers` from `Sudoku.solve`: the coordinate/value list
`1 .. max(rows, columns)`. -/
def validCellNumbers (maxCell : Nat) : List Nat := List.range' 1 maxCell

/-- The inner pair enumeration of the row/column loops of `Sudoku.solve`:
every first coordinate `x` paired with each strictly larger `y`
(`columns_to_right` / `rows_to_right` filters). -/
def pairsAfter (l : List Nat) : List (Nat × Nat) :=
  l.flatMap fun x => (l.filter fun y => decide (x < y)).map fun y => (x, y)

/-- The cell pairs for which the row loop of `Sudoku.solve` (lines 79-88)
emits one fresh 0/1 indicator variable and the two big-M inequalities. -/
def rowPairConstraints (maxCell : Nat) : List (Cell × Cell) :=
  (validCellNumbers maxCell).flatMap fun row =>
    (pairsAfter (validCellNumbers maxCell)).map fun p =>
      ((⟨(row : Int), (p.1 : Int)⟩ : Cell), (⟨(row : Int), (p.2 : Int)⟩ : Cell))

/-- The cell pairs for which the column loop of `Sudoku.solve` (lines 91-100)
emits one fresh 0/1 indicator variable and the two big-M inequalities. -/
def columnPairConstraints (maxCell : Nat) : List (Cell × Cell) :=
  (validCellNumbers maxCell).flatMap fun column =>
    (pairsAfter (validCellNumbers maxCell)).map fun p =>
      ((⟨(p.1 : Int), (column : Int)⟩ : Cell), (⟨(p.2 : Int), (column : Int)⟩ : Cell))

/-- The two big-M inequalities attached to one indicator variable `bv`
(`sudoku.py` lines 87-88 and 99-100):
`var_a <= var_b - 1 + M*bv` and `var_a >= var_b + 1 - M*(1 - bv)`. -/
def indicatorSat (M va vb bv : Int) : Prop :=
  va ≤ vb - 1 + M * bv ∧ va ≥ vb + 1 - M * (1 - bv)

/-- C2: for integer values in `[1, M]`, some 0/1 indicator satisfies the two
big-M inequalities exactly when the two values differ — the encoding neither
excludes an unequal pair nor admits an equal pair. -/
theorem indicator_encoding_exact (M va vb : Int)
    (hva1 : 1 ≤ va) (hvaM : va ≤ M) (hvb1 : 1 ≤ vb) (hvbM : vb ≤ M) :
    (∃ bv : Int, (bv = 0 ∨ bv = 1) ∧ indicatorSat M va vb bv) ↔ va ≠ vb := by
  unfold indicatorSat
  constructor
  · rintro ⟨bv, (rfl | rfl), hle, hge⟩ <;> omega
  · intro hne
    rcases lt_or_gt_of_ne hne with hlt | hgt
    · exact ⟨0, Or.inl rfl, by omega, by omega⟩
    · exact ⟨1, Or.inr rfl, by omega, by omega⟩

/-- C2 witness: with `M = 9`, values 3 and 5 admit an indicator (and indeed
differ). -/
theorem indicator_encoding_exact_witness :
    ((∃ bv : Int, (bv = 0 ∨ bv = 1) ∧ indicatorSat 9 3 5 bv) ↔ (3 : Int) ≠ 5) ∧
    (3 : Int) ≠ 5 :=
  ⟨indicator_encoding_exact 9 3 5 (by decide) (by decide) (by decide) (by decide),
   by decide⟩

/-- Does a constraint entry constrain exactly the unordered pair of cells
`a`, `b`? -/
def pairMatches (a b : Cell) (t : Cell × Cell) : Bool :=
  decide ((t.1 = a ∧ t.2 = b) ∨ (t.1 = b ∧ t.2 = a))

lemma countP_flatMap' {α β : Type} (p : β → Bool) (f : α → List β) :
    ∀ l : List α, ((l.flatMap f).countP p) = (l.map fun x => (f x).countP p).sum
  | [] => rfl
  | a :: l => by
    rw [List.flatMap_cons, List.countP_append, countP_flatMap' p f l,
      List.map_cons, List.sum_cons]

lemma countP_map' {α β : Type} (p : β → Bool) (f : α → β) :
    ∀ l : List α, ((l.map f).countP p) = l.countP fun x => p (f x)
  | [] => rfl
  | a :: l => by
    rw [List.map_cons, List.countP_cons, List.countP_cons, countP_map' p f l]

lemma sum_map_zero' {α : Type} (g : α → Nat) :
    ∀ l : List α, (∀ x ∈ l, g x = 0) → (l.map g).sum = 0
  | [], _ => rfl
  | a :: l, h => by
    rw [List.map_cons, List.sum_cons, h a (List.mem_cons_self a l),
      sum_map_zero' g l (fun x hx => h x (List.mem_cons_of_mem a hx))]

lemma sum_map_single {α : Type} (g : α → Nat) :
    ∀ (l : List α), l.Nodup → ∀ a, a ∈ l → (∀ x ∈ l, x ≠ a → g x = 0) →
      (l.map g).sum = g a
  | [], _, a, ha, _ => absurd ha (List.not_mem_nil a)
  | x :: l, hnd, a, ha, hz => by
    obtain ⟨hxl, hndl⟩ := List.nodup_cons.mp hnd
    rcases List.mem_cons.mp ha with rfl | ha'
    · have hzl : ∀ y ∈ l, g y = 0 := fun y hy =>
        hz y (List.mem_cons_of_mem a hy) (fun hya => hxl (hya ▸ hy))
      rw [List.map_cons, List.sum_cons, sum_map_zero' g l hzl]
      exact rfl
    · have hxa : x ≠ a := fun hxa => hxl (hxa ▸ ha')
      rw [List.map_cons, List.sum_cons, hz x (List.mem_cons_self x l) hxa,
        sum_map_single g l hndl a ha'
          (fun y hy hya => hz y (List.mem_cons_of_mem x hy) hya),
        Nat.zero_add]

lemma countP_decide_eq_one {α : Type} [DecidableEq α] (l : List α) (hnd : l.Nodup)
    (b : α) (hb : b ∈ l) : l.countP (fun d => decide (d = b)) = 1 := by
  have h := List.count_eq_one_of_mem hnd hb
  rw [← h]
  apply List.countP_congr
  intro x _
  simp

lemma pairsAfter_mem (l : List Nat) (t : Nat × Nat) (h : t ∈ pairsAfter l) :
    t.1 ∈ l ∧ t.2 ∈ l ∧ t.1 < t.2 := by
  simp only [pairsAfter, List.mem_flatMap, List.mem_map, List.mem_filter,
    decide_eq_true_eq] at h
  obtain ⟨x, hx, y, ⟨hy, hxy⟩, rfl⟩ := h
  exact ⟨hx, hy, hxy⟩

/-- In the ordered pair enumeration of a duplicate-free list, every unordered
pair of distinct members is hit exactly once. -/
lemma pairsAfter_countP (l : List Nat) (hnd : l.Nodup) (a b : Nat)
    (ha : a ∈ l) (hb : b ∈ l) (hab : a < b) :
    (pairsAfter l).countP
      (fun t => decide ((t.1 = a ∧ t.2 = b) ∨ (t.1 = b ∧ t.2 = a))) = 1 := by
  rw [pairsAfter, countP_flatMap']
  have hone : ((l.filter fun y => decide (a < y)).map fun y => ((a : Nat), y)).countP
      (fun t => decide ((t.1 = a ∧ t.2 = b) ∨ (t.1 = b ∧ t.2 = a))) = 1 := by
    rw [countP_map']
    have hcongr : ∀ y ∈ (l.filter fun y => decide (a < y)),
        (decide (((a, y).1 = a ∧ (a, y).2 = b) ∨ ((a, y).1 = b ∧ (a, y).2 = a)) = true) ↔
          (decide (y = b) = true) := by
      intro y _
      constructor
      · intro h
        rw [decide_eq_true_eq] at h ⊢
        rcases h with ⟨_, h2⟩ | ⟨h1, _⟩
        · exact h2
        · have h1' : a = b := h1
          omega
      · intro h
        rw [decide_eq_true_eq] at h ⊢
        have h' : y = b := h
        exact Or.inl ⟨rfl, h'⟩
    rw [List.countP_congr hcongr]
    have hfnd : (l.filter fun y => decide (a < y)).Nodup := List.Nodup.filter _ hnd
    have hbf : b ∈ l.filter fun y => decide (a < y) :=
      List.mem_filter.mpr ⟨hb, by simpa using hab⟩
    exact countP_decide_eq_one _ hfnd b hbf
  have hzero : ∀ x ∈ l, x ≠ a →
      ((l.filter fun y => decide (x < y)).map fun y => ((x : Nat), y)).countP
        (fun t => decide ((t.1 = a ∧ t.2 = b) ∨ (t.1 = b ∧ t.2 = a))) = 0 := by
    intro x hx hxa
    rw [countP_map', List.countP_eq_zero]
    intro y hy
    simp only [decide_eq_true_eq]
    rintro (⟨h1, _⟩ | ⟨h1, h2⟩)
    · exact hxa h1
    · have hxy := (List.mem_filter.mp hy).2
      simp only [decide_eq_true_eq] at hxy
      omega
  have hsum := sum_map_single
    (fun x => ((l.filter fun y => decide (x < y)).map fun y => ((x : Nat), y)).countP
      (fun t => decide ((t.1 = a ∧ t.2 = b) ∨ (t.1 = b ∧ t.2 = a))))
    l hnd a ha hzero
  exact hsum.trans hone

lemma countP_pairMatches_comm (A B : Cell) (L : List (Cell × Cell)) :
    L.countP (pairMatches A B) = L.countP (pairMatches B A) := by
  apply List.countP_congr
  intro t _
  simp only [pairMatches, decide_eq_true_eq]
  tauto

lemma rowPairConstraints_countP (N row a b : Nat)
    (hrow : row ∈ validCellNumbers N) (ha : a ∈ validCellNumbers N)
    (hb : b ∈ validCellNumbers N) (hab : a < b) :
    (rowPairConstraints N).countP
      (pairMatches ⟨(row : Int), (a : Int)⟩ ⟨(row : Int), (b : Int)⟩) = 1 := by
  have hnd : (validCellNumbers N).Nodup := List.nodup_range' 1 N 1 (by omega)
  rw [rowPairConstraints, countP_flatMap']
  have hone : ((pairsAfter (validCellNumbers N)).map fun p =>
      ((⟨(row : Int), (p.1 : Int)⟩ : Cell), (⟨(row : Int), (p.2 : Int)⟩ : Cell))).countP
      (pairMatches ⟨(row : Int), (a : Int)⟩ ⟨(row : Int), (b : Int)⟩) = 1 := by
    rw [countP_map']
    rw [List.countP_congr ?_]
    · exact pairsAfter_countP (validCellNumbers N) hnd a b ha hb hab
    · intro p _
      simp [pairMatches, Nat.cast_inj]
  have hzero : ∀ x ∈ validCellNumbers N, x ≠ row →
      ((pairsAfter (validCellNumbers N)).map fun p =>
        ((⟨(x : Int), (p.1 : Int)⟩ : Cell), (⟨(x : Int), (p.2 : Int)⟩ : Cell))).countP
        (pairMatches ⟨(row : Int), (a : Int)⟩ ⟨(row : Int), (b : Int)⟩) = 0 := by
    intro x _ hxrow
    rw [countP_map', List.countP_eq_zero]
    intro p _
    simp [pairMatches, Nat.cast_inj, hxrow]
  have hsum := sum_map_single
    (fun (x : Nat) => ((pairsAfter (validCellNumbers N)).map fun p =>
      ((⟨(x : Int), (p.1 : Int)⟩ : Cell), (⟨(x : Int), (p.2 : Int)⟩ : Cell))).countP
      (pairMatches ⟨(row : Int), (a : Int)⟩ ⟨(row : Int), (b : Int)⟩))
    (validCellNumbers N) hnd row hrow hzero
  exact hsum.trans hone

lemma columnPairConstraints_countP (N column a b : Nat)
    (hcol : column ∈ validCellNumbers N) (ha : a ∈ validCellNumbers N)
    (hb : b ∈ validCellNumbers N) (hab : a < b) :
    (columnPairConstraints N).countP
      (pairMatches ⟨(a : Int), (column : Int)⟩ ⟨(b : Int), (column : Int)⟩) = 1 := by
  have hnd : (validCellNumbers N).Nodup := List.nodup_range' 1 N 1 (by omega)
  rw [columnPairConstraints, countP_flatMap']
  have hone : ((pairsAfter (validCellNumbers N)).map fun p =>
      ((⟨(p.1 : Int), (column : Int)⟩ : Cell), (⟨(p.2 : Int), (column : Int)⟩ : Cell))).countP
      (pairMatches ⟨(a : Int), (column : Int)⟩ ⟨(b : Int), (column : Int)⟩) = 1 := by
    rw [countP_map']
    rw [List.countP_congr ?_]
    · exact pairsAfter_countP (validCellNumbers N) hnd a b ha hb hab
    · intro p _
      simp [pairMatches, Nat.cast_inj]
  have hzero : ∀ x ∈ validCellNumbers N, x ≠ column →
      ((pairsAfter (validCellNumbers N)).map fun p =>
        ((⟨(p.1 : Int), (x : Int)⟩ : Cell), (⟨(p.2 : Int), (x : Int)⟩ : Cell))).countP
        (pairMatches ⟨(a : Int), (column : Int)⟩ ⟨(b : Int), (column : Int)⟩) = 0 := by
    intro x _ hxcol
    rw [countP_map', List.countP_eq_zero]
    intro p _
    simp [pairMatches, Nat.cast_inj, hxcol]
  have hsum := sum_map_single
    (fun (x : Nat) => ((pairsAfter (validCellNumbers N)).map fun p =>
      ((⟨(p.1 : Int), (x : Int)⟩ : Cell), (⟨(p.2 : Int), (x : Int)⟩ : Cell))).countP
      (pairMatches ⟨(a : Int), (column : Int)⟩ ⟨(b : Int), (column : Int)⟩))
    (validCellNumbers N) hnd column hcol hzero
  exact hsum.trans hone

/-- C8: for each row and each column scope, the solve loops emit the
indicator encoding exactly once per unordered pair of distinct coordinates
(count 1 — never zero, never duplicated), and every emitted entry is ordered
with its second coordinate strictly above its first. -/
theorem row_column_pairs_once (N row column a b : Nat)
    (hrow : row ∈ validCellNumbers N) (hcol : column ∈ validCellNumbers N)
    (ha : a ∈ validCellNumbers N) (hb : b ∈ validCellNumbers N) (hab : a ≠ b) :
    (rowPairConstraints N).countP
        (pairMatches ⟨(row : Int), (a : Int)⟩ ⟨(row : Int), (b : Int)⟩) = 1 ∧
    (columnPairConstraints N).countP
        (pairMatches ⟨(a : Int), (column : Int)⟩ ⟨(b : Int), (column : Int)⟩) = 1 ∧
    ((rowPairConstraints N).all fun t =>
        decide (t.1.row = t.2.row) && decide (t.1.column < t.2.column)) = true ∧
    ((columnPairConstraints N).all fun t =>
        decide (t.1.column = t.2.column) && decide (t.1.row < t.2.row)) = true := by
  refine ⟨?_, ?_, ?_, ?_⟩
  · rcases Nat.lt_or_ge a b with hlt | hge
    · exact rowPairConstraints_countP N row a b hrow ha hb hlt
    · have hlt : b < a := by omega
      rw [countP_pairMatches_comm]
      exact rowPairConstraints_countP N row b a hrow hb ha hlt
  · rcases Nat.lt_or_ge a b with hlt | hge
    · exact columnPairConstraints_countP N column a b hcol ha hb hlt
    · have hlt : b < a := by omega
      rw [countP_pairMatches_comm]
      exact columnPairConstraints_countP N column b a hcol hb ha hlt
  · rw [List.all_eq_true]
    intro t ht
    simp only [rowPairConstraints, List.mem_flatMap, List.mem_map] at ht
    obtain ⟨r, _, p, hp, rfl⟩ := ht
    have hord := (pairsAfter_mem _ p hp).2.2
    simp [Nat.cast_lt, hord]
  · rw [List.all_eq_true]
    intro t ht
    simp only [columnPairConstraints, List.mem_flatMap, List.mem_map] at ht
    obtain ⟨c, _, p, hp, rfl⟩ := ht
    have hord := (pairsAfter_mem _ p hp).2.2
    simp [Nat.cast_lt, hord]

/-- C8 witness: the counting and ordering facts evaluated on the 4x4 board,
row 2, column 3, unordered coordinate pair 3 and 1. -/
theorem row_column_pairs_once_witness :
    (rowPairConstraints 4).countP
        (pairMatches ⟨((2 : Nat) : Int), ((3 : Nat) : Int)⟩
          ⟨((2 : Nat) : Int), ((1 : Nat) : Int)⟩) = 1 ∧
    (columnPairConstraints 4).countP
        (pairMatches ⟨((3 : Nat) : Int), ((3 : Nat) : Int)⟩
          ⟨((1 : Nat) : Int), ((3 : Nat) : Int)⟩) = 1 ∧
    ((rowPairConstraints 4).all fun t =>
        decide (t.1.row = t.2.row) && decide (t.1.column < t.2.column)) = true ∧
    ((columnPairConstraints 4).all fun t =>
        decide (t.1.column = t.2.column) && decide (t.1.row < t.2.row)) = true :=
  row_column_pairs_once 4 2 3 3 1 (by decide) (by decide) (by decide) (by decide)
    (by decide)

/-- Every unordered pair of distinct positions of a list, enumerated in list
order. -/
def pairsOf : List Cell → List (Cell × Cell)
  | [] => []
  | c :: rest => (rest.map fun d => (c, d)) ++ pairsOf rest

/-- Modelled from the spec: `Box.add_box_constraint` is invoked by
`Sudoku.solve` (line 104 of `sudoku.py`) but its definition is not among the
sources under review.  Per the spec's all-different encoding, it introduces,
for every unordered pair of distinct cells of the box, one auxiliary 0/1
indicator variable together with the two big-M inequalities
(`indicatorSat`) over the pair's cell variables. -/
def Box.add_box_constraint (bx : Box) : List (Cell × Cell) :=
  pairsOf bx.cells

/-- The box all-different constraints emitted by the box loop of
`Sudoku.solve` (lines 102-104). -/
def boxesConstraints (boxes : List Box) : List (Cell × Cell) :=
  boxes.flatMap fun bx => bx.add_box_constraint

lemma pairsOf_mem :
    ∀ (l : List Cell) (t : Cell × Cell), t ∈ pairsOf l → t.1 ∈ l ∧ t.2 ∈ l
  | [], t, h => absurd h (List.not_mem_nil t)
  | c :: rest, t, h => by
    rw [pairsOf, List.mem_append] at h
    rcases h with h | h
    · rcases List.mem_map.mp h with ⟨d, hd, rfl⟩
      exact ⟨List.mem_cons_self c rest, List.mem_cons_of_mem c hd⟩
    · have := pairsOf_mem rest t h
      exact ⟨List.mem_cons_of_mem c this.1, List.mem_cons_of_mem c this.2⟩

lemma pairsOf_countP :
    ∀ (l : List Cell), l.Nodup → ∀ a b : Cell, a ∈ l → b ∈ l → a ≠ b →
      (pairsOf l).countP (pairMatches a b) = 1
  | [], _, a, _, ha, _, _ => absurd ha (List.not_mem_nil a)
  | c :: rest, hnd, a, b, ha, hb, hab => by
    obtain ⟨hcrest, hndrest⟩ := List.nodup_cons.mp hnd
    rw [pairsOf, List.countP_append]
    rcases List.mem_cons.mp ha with rfl | harest
    · have hbrest : b ∈ rest := by
        rcases List.mem_cons.mp hb with rfl | h
        · exact absurd rfl hab
        · exact h
      have hmap : (rest.map fun d => (a, d)).countP (pairMatches a b) = 1 := by
        rw [countP_map']
        rw [List.countP_congr ?_]
        · exact countP_decide_eq_one rest hndrest b hbrest
        · intro d _
          constructor
          · intro h
            rw [pairMatches, decide_eq_true_eq] at h
            rw [decide_eq_true_eq]
            rcases h with ⟨_, h2⟩ | ⟨h1, _⟩
            · exact h2
            · have h1' : a = b := h1
              exact absurd h1' hab
          · intro h
            rw [decide_eq_true_eq] at h
            rw [pairMatches, decide_eq_true_eq]
            exact Or.inl ⟨rfl, h⟩
      have hrest0 : (pairsOf rest).countP (pairMatches a b) = 0 := by
        rw [List.countP_eq_zero]
        intro t ht
        have hm := pairsOf_mem rest t ht
        rw [pairMatches, decide_eq_true_eq]
        rintro (⟨h1, _⟩ | ⟨_, h2⟩)
        · exact hcrest (h1 ▸ hm.1)
        · exact hcrest (h2 ▸ hm.2)
      rw [hmap, hrest0]
    · rcases List.mem_cons.mp hb with rfl | hbrest
      · have hmap : (rest.map fun d => (b, d)).countP (pairMatches a b) = 1 := by
          rw [countP_map']
          rw [List.countP_congr ?_]
          · exact countP_decide_eq_one rest hndrest a harest
          · intro d _
            constructor
            · intro h
              rw [pairMatches, decide_eq_true_eq] at h
              rw [decide_eq_true_eq]
              rcases h with ⟨h1, _⟩ | ⟨_, h2⟩
              · have h1' : b = a := h1
                exact absurd h1'.symm hab
              · exact h2
            · intro h
              rw [decide_eq_true_eq] at h
              rw [pairMatches, decide_eq_true_eq]
              exact Or.inr ⟨rfl, h⟩
        have hrest0 : (pairsOf rest).countP (pairMatches a b) = 0 := by
          rw [List.countP_eq_zero]
          intro t ht
          have hm := pairsOf_mem rest t ht
          rw [pairMatches, decide_eq_true_eq]
          rintro (⟨_, h2⟩ | ⟨h1, _⟩)
          · exact hcrest (h2 ▸ hm.2)
          · exact hcrest (h1 ▸ hm.1)
        rw [hmap, hrest0]
      · have hmap : (rest.map fun d => (c, d)).countP (pairMatches a b) = 0 := by
          rw [countP_map', List.countP_eq_zero]
          intro d _
          rw [pairMatches, decide_eq_true_eq]
          rintro (⟨h1, _⟩ | ⟨h1, _⟩)
          · have h1' : c = a := h1
            exact hcrest (by rw [h1']; exact harest)
          · have h1' : c = b := h1
            exact hcrest (by rw [h1']; exact hbrest)
        rw [hmap, pairsOf_countP rest hndrest a b harest hbrest hab]

lemma boxesConstraints_countP (a b : Cell) :
    ∀ (boxes : List Box),
      (boxes.Pairwise fun b1 b2 => ∀ c ∈ b1.cells, c ∉ b2.cells) →
      ∀ bx, bx ∈ boxes → bx.cells.Nodup → a ∈ bx.cells → b ∈ bx.cells → a ≠ b →
        (boxesConstraints boxes).countP (pairMatches a b) = 1
  | [], _, bx, hbx, _, _, _, _ => absurd hbx (List.not_mem_nil bx)
  | bx0 :: rest, hpw, bx, hbx, hnd, ha, hb, hab => by
    obtain ⟨hdisj0, hpwrest⟩ := List.pairwise_cons.mp hpw
    rw [boxesConstraints, List.flatMap_cons, List.countP_append]
    rcases List.mem_cons.mp hbx with rfl | hbxrest
    · have h1 : (Box.add_box_constraint bx).countP (pairMatches a b) = 1 :=
        pairsOf_countP bx.cells hnd a b ha hb hab
      have h0 : ((rest.flatMap fun x => x.add_box_constraint)).countP
          (pairMatches a b) = 0 := by
        rw [List.countP_eq_zero]
        intro t ht
        rcases List.mem_flatMap.mp ht with ⟨bx', hbx', ht'⟩
        have hm := pairsOf_mem bx'.cells t ht'
        rw [pairMatches, decide_eq_true_eq]
        rintro (⟨h1', _⟩ | ⟨_, h2'⟩)
        · exact hdisj0 bx' hbx' a ha (h1' ▸ hm.1)
        · exact hdisj0 bx' hbx' a ha (h2' ▸ hm.2)
      rw [h1, h0]
    · have h0 : (Box.add_box_constraint bx0).countP (pairMatches a b) = 0 := by
        rw [Box.add_box_constraint, List.countP_eq_zero]
        intro t ht
        have hm := pairsOf_mem bx0.cells t ht
        rw [pairMatches, decide_eq_true_eq]
        rintro (⟨h1', _⟩ | ⟨_, h2'⟩)
        · exact hdisj0 bx hbxrest a (h1' ▸ hm.1) ha
        · exact hdisj0 bx hbxrest a (h2' ▸ hm.2) ha
      have hrest1 : ((rest.flatMap fun x => x.add_box_constraint)).countP
          (pairMatches a b) = 1 :=
        boxesConstraints_countP a b rest hpwrest bx hbxrest hnd ha hb hab
      rw [h0, hrest1]

/-- C1 (with `Box.add_box_constraint` modelled from the spec): over a
pairwise-disjoint validated region list, every unordered pair of distinct
cells sharing a box receives exactly one indicator entry — one fresh 0/1
variable with its two big-M inequalities — and any in-bounds values
satisfying those two inequalities for either indicator value must differ, so
the region's cells are pairwise constrained to differ. -/
theorem box_pairs_once_and_force_ne (boxes : List Box) (bx : Box) (a b : Cell)
    (hpw : boxes.Pairwise fun b1 b2 => ∀ c ∈ b1.cells, c ∉ b2.cells)
    (hbx : bx ∈ boxes) (hnd : bx.cells.Nodup)
    (ha : a ∈ bx.cells) (hb : b ∈ bx.cells) (hab : a ≠ b) :
    (boxesConstraints boxes).countP (pairMatches a b) = 1 ∧
    (∀ M va vb bv : Int, (bv = 0 ∨ bv = 1) → 1 ≤ va → va ≤ M → 1 ≤ vb → vb ≤ M →
      indicatorSat M va vb bv → va ≠ vb) := by
  constructor
  · exact boxesConstraints_countP a b boxes hpw bx hbx hnd ha hb hab
  · rintro M va vb bv hb01 h1 h2 h3 h4 hsat
    obtain ⟨hle, hge⟩ := hsat
    rcases hb01 with rfl | rfl <;> omega

/-- C1 witness: on the domino partition of the 2x2 grid the pair of cells in
the first box is constrained exactly once, and a satisfied indicator instance
separates the values 4 and 3. -/
theorem box_pairs_once_and_force_ne_witness :
    (boxesConstraints dominoBoxes).countP
        (pairMatches (⟨1, 1⟩ : Cell) (⟨1, 2⟩ : Cell)) = 1 ∧
    (4 : Int) ≠ 3 :=
  ⟨(box_pairs_once_and_force_ne dominoBoxes ⟨[⟨1, 1⟩, ⟨1, 2⟩]⟩ ⟨1, 1⟩ ⟨1, 2⟩
      (by decide) (by decide) (by decide) (by decide) (by decide) (by decide)).1,
   (box_pairs_once_and_force_ne dominoBoxes ⟨[⟨1, 1⟩, ⟨1, 2⟩]⟩ ⟨1, 1⟩ ⟨1, 2⟩
      (by decide) (by decide) (by decide) (by decide) (by decide) (by decide)).2
     9 4 3 1 (Or.inr rfl) (by decide) (by decide) (by decide) (by decide)
     ⟨by decide, by decide⟩⟩

/-- The per-cell variable bounds declared by `Sudoku.solve` (line 73): each
cell variable is an integer in `[1, max(rows, columns)]`. -/
def cellBounds (maxCell : Nat) : List (Cell × Int × Int) :=
  (validCellNumbers maxCell).flatMap fun (r : Nat) =>
    (validCellNumbers maxCell).map fun (c : Nat) =>
      ((⟨(r : Int), (c : Int)⟩ : Cell), 1, (maxCell : Int))

/-- The redundant row and column sum constraints of `Sudoku.solve`
(lines 80 and 92): each row's (and column's) variables sum to
`sum(valid_cell_numbers)`. -/
def sumConstraints (maxCell : Nat) : List (List Cell × Nat) :=
  ((validCellNumbers maxCell).map fun row =>
    ((validCellNumbers maxCell).map fun c => (⟨(row : Int), (c : Int)⟩ : Cell),
      (validCellNumbers maxCell).sum)) ++
  ((validCellNumbers maxCell).map fun column =>
    ((validCellNumbers maxCell).map fun r => (⟨(r : Int), (column : Int)⟩ : Cell),
      (validCellNumbers maxCell).sum))

/-- The constraint system assembled by `Sudoku.solve` before the solver call
(lines 68-108). -/
structure LPSystem where
  bounds : List (Cell × Int × Int)
  sums : List (List Cell × Nat)
  allDiffPairs : List (Cell × Cell)
  clues : List (Cell × Nat)
deriving DecidableEq

/-- The system `Sudoku.solve` builds from a constructed board: bounds, sums,
row/column/box indicator pairs, and one equality per recorded given. -/
def Sudoku.buildSystem (m : SudokuModel) : LPSystem :=
  { bounds := cellBounds (max m.rows m.columns)
    sums := sumConstraints (max m.rows m.columns)
    allDiffPairs := rowPairConstraints (max m.rows m.columns) ++
      columnPairConstraints (max m.rows m.columns) ++ boxesConstraints m.boxes
    clues := m.digits }

lemma cellBounds_length (maxCell : Nat) :
    (cellBounds maxCell).length = maxCell * maxCell := by
  rw [cellBounds]
  rw [List.length_flatMap]
  have h : (List.length ∘ fun (r : Nat) => (validCellNumbers maxCell).map fun (c : Nat) =>
      ((⟨(r : Int), (c : Int)⟩ : Cell), (1 : Int), (maxCell : Int))) = fun _ => maxCell := by
    funext r
    simp [validCellNumbers, List.length_range']
  rw [h, List.map_const', List.sum_replicate, smul_eq_mul, validCellNumbers,
    List.length_range']

lemma make_none_inv (rows columns : Nat) (boxes : List Box) (m : SudokuModel)
    (h : Sudoku.make rows columns boxes none = some m) :
    m = ⟨rows, columns, boxes, []⟩ := by
  by_cases h1 : rows = columns
  · rw [Sudoku.make, if_pos h1] at h
    by_cases h2 : Sudoku.validate_boxes rows columns boxes = true
    · rw [if_pos h2] at h
      injection h with h
      exact h.symm
    · rw [if_neg h2] at h
      exact Option.noConfusion h
  · rw [Sudoku.make, if_neg h1] at h
    exact Option.noConfusion h

/-- C10: constructing a board with no givens string records an empty givens
mapping, and the emitted system has no clue equalities while still carrying
every variable bound and all the row, column and box all-different indicator
pairs. -/
theorem no_givens_no_clues (rows columns : Nat) (boxes : List Box)
    (m : SudokuModel) (h : Sudoku.make rows columns boxes none = some m) :
    m.digits = [] ∧ (Sudoku.buildSystem m).clues = [] ∧
    (Sudoku.buildSystem m).bounds.length =
      max rows columns * max rows columns ∧
    (Sudoku.buildSystem m).allDiffPairs =
      rowPairConstraints (max rows columns) ++
        columnPairConstraints (max rows columns) ++ boxesConstraints boxes := by
  have hm := make_none_inv rows columns boxes m h
  subst hm
  refine ⟨rfl, rfl, ?_, rfl⟩
  exact cellBounds_length (max rows columns)

/-- C10 witness: the 2x2 domino board built with no givens string. -/
theorem no_givens_no_clues_witness :
    (⟨2, 2, dominoBoxes, []⟩ : SudokuModel).digits = [] ∧
    (Sudoku.buildSystem ⟨2, 2, dominoBoxes, []⟩).clues = [] ∧
    (Sudoku.buildSystem ⟨2, 2, dominoBoxes, []⟩).bounds.length = max 2 2 * max 2 2 ∧
    (Sudoku.buildSystem ⟨2, 2, dominoBoxes, []⟩).allDiffPairs =
      rowPairConstraints (max 2 2) ++ columnPairConstraints (max 2 2) ++
        boxesConstraints dominoBoxes :=
  no_givens_no_clues 2 2 dominoBoxes ⟨2, 2, dominoBoxes, []⟩ (by decide)

/-- The text block `Sudoku.solve` writes for a solved 9x9 board
(lines 116-136 of `sudoku.py`): digits separated by spaces, `| ` column
separators every third column, a horizontal rule every third row and at the
bottom. -/
def renderSolution (valsAt : Nat → Nat → Int) : String :=
  ((validCellNumbers 9).foldl (fun acc r =>
      (if r % 3 = 1 then acc ++ "+-------+-------+-------+\n" else acc) ++
        ((validCellNumbers 9).foldl (fun acc2 c =>
          acc2 ++ (if c % 3 = 1 then "| " else "") ++ toString (valsAt r c) ++ " " ++
            (if c = 9 then "|\n" else "")) "")) "") ++
  "+-------+-------+-------+"

/-- The only data `Sudoku.solve` makes available after a successful solve:
the solved grid is written to the file named `sudokuout.txt`, and only when
`rows = 9`; for any other size nothing is produced. -/
def Sudoku.solveFileText (rows : Nat) (valsAt : Nat → Nat → Int) : Option String :=
  if rows = 9 then some (renderSolution valsAt) else none

/-- The value `Sudoku.solve` hands back to its caller: the method body has no
return statement, so the caller always receives `None`. -/
def Sudoku.solveReturnValue : Option (List (List Int)) := none

/-- C7 (code bug): the solve operation never returns the reshaped assignment
to the caller — its return value is `None` for every board — and for a
non-9x9 board (here 4x4) it produces no output at all; only for a 9x9 board
is the grid written to a text file as a side effect. -/
theorem solve_returns_no_grid :
    Sudoku.solveReturnValue = none ∧
    Sudoku.solveFileText 4 (fun _ _ => 1) = none ∧
    Sudoku.solveFileText 9 (fun _ _ => 1) ≠ none := by
  refine ⟨rfl, rfl, ?_⟩
  rw [Sudoku.solveFileText, if_pos rfl]
  exact fun hh => Option.noConfusion hh
